/-
Verification of the pubgrub dependency-resolution core (vector-of-bool/pubgrub).

This file gives a shallow embedding of the library's core data structures and
algorithms — the interval-set helper, the signed term algebra, the assignment
log with its per-key aggregates, the incompatibility store and the solver
loop — translated from the C++ sources (term.hpp, interval.hpp,
incompatibility.hpp, the assignment-log header, solve.hpp, failure.hpp),
together with theorems settling the specification's claims about them.

Conventions used throughout:
  * `Option` models `std::optional`: `none` is the empty optional.
  * `Except Unit` / `Option` on a routine's result models its fatal paths
    (`neo_assert`, `assert(false)`, `std::terminate`): the error value means
    the C++ aborts the process there.
  * C++ references into a container are modelled as indices into the list
    that embeds the container; pointer comparison between two references
    into the same vector is index comparison.
  * `std::map` / `std::set` (ordered, unique keys) are modelled as sorted
    association lists / sorted duplicate-free lists, with lookup, ordered
    insertion, assignment and erasure spelled out below.
-/
import Mathlib

set_option maxHeartbeats 1000000

/-- Relation of one term to another (term.hpp `set_relation`). -/
inductive SetRel where
  | disjoint
  | overlap
  | subset
deriving DecidableEq, Repr

/-- Operations the client-supplied requirement type must provide
(concepts.hpp `requirement`): a key, the set operations returning `none` for
the empty set, and the containment / disjointness tests. The fields `isect`,
`runion` and `rdiff` embed the members named `intersection`, `union_` and
`difference` in the source. -/
structure ReqOps (R K : Type) where
  key : R → K
  isect : R → R → Option R
  runion : R → R → Option R
  rdiff : R → R → Option R
  impliedBy : R → R → Bool
  excludes : R → R → Bool

/-- Signed requirement (term.hpp `term`): positive means "the chosen value
lies in the requirement's set", negative means it does not. -/
structure Term (R : Type) where
  requirement : R
  positive : Bool
deriving DecidableEq, Repr

/-- Flip the sign of a term (term.hpp `inverse`). -/
def Term.inverse (t : Term R) : Term R :=
  ⟨t.requirement, !t.positive⟩

/-- Intersection of two terms (term.hpp `intersection`). The `neg, pos` case
is the source's `other.intersection(*this)` commutation, inlined (it lands in
the `pos, neg` branch with the operands swapped). `.error ()` models the
fatal `neo_assert` on differing keys and on the unrepresentable
negative-negative union. -/
def Term.intersection [DecidableEq K] (O : ReqOps R K) (a b : Term R) :
    Except Unit (Option (Term R)) :=
  if O.key a.requirement ≠ O.key b.requirement then .error ()
  else
    match a.positive, b.positive with
    | true, true => .ok ((O.isect a.requirement b.requirement).map (fun r => Term.mk r true))
    | false, false =>
      match O.runion a.requirement b.requirement with
      | some u => .ok (some (Term.mk u false))
      | none => .error ()
    | true, false => .ok ((O.rdiff a.requirement b.requirement).map (fun r => Term.mk r true))
    | false, true => .ok ((O.rdiff b.requirement a.requirement).map (fun r => Term.mk r true))

/-- Difference of two terms (term.hpp `difference`): intersection with the
inverse of the right operand. -/
def Term.difference [DecidableEq K] (O : ReqOps R K) (a b : Term R) :
    Except Unit (Option (Term R)) :=
  Term.intersection O a (Term.inverse b)

/-- Containment test `a.implied_by(b)` (term.hpp): every value admitted by
`b` is admitted by `a`. Differing keys yield `false`. -/
def Term.impliedBy [DecidableEq K] (O : ReqOps R K) (a b : Term R) : Bool :=
  if O.key a.requirement ≠ O.key b.requirement then false
  else
    match a.positive, b.positive with
    | true, true => O.impliedBy a.requirement b.requirement
    | true, false => false
    | false, true => O.excludes a.requirement b.requirement
    | false, false => O.impliedBy b.requirement a.requirement

/-- Disjointness test `a.excludes(b)` (term.hpp): no value satisfies both
terms. The `pos, neg` case is the source's `other.excludes(*this)`
commutation, inlined. Differing keys yield `false`. -/
def Term.excludes [DecidableEq K] (O : ReqOps R K) (a b : Term R) : Bool :=
  if O.key a.requirement ≠ O.key b.requirement then false
  else
    match a.positive, b.positive with
    | true, true => O.excludes a.requirement b.requirement
    | true, false => O.impliedBy b.requirement a.requirement
    | false, true => O.impliedBy a.requirement b.requirement
    | false, false => false

/-- Classification of `a` against `b` (term.hpp `relation_to`): `implies`
first, then `excludes`, else overlap. `a.implies(b)` is `b.implied_by(a)`.
The source's key-equality assertion holds at every call site (both terms
come from the same key's map slot), so it is not re-modelled here. -/
def Term.relationTo [DecidableEq K] (O : ReqOps R K) (a b : Term R) : SetRel :=
  if Term.impliedBy O b a then .subset
  else if Term.excludes O a b then .disjoint
  else .overlap

/-- Boundary-point list of an interval set (interval.hpp `interval_set`):
`[p0, p1, p2, p3, ...]` denotes `[p0,p1) ∪ [p2,p3) ∪ ...`; the invariant is
even length and strictly increasing points. -/
abbrev IntervalSet := List Int

/-- Count of boundary points not after `x` (interval.hpp
`_find_point_after` / `_n_points_before`): the partition point of the
predicate `!(x < p)`, i.e. the number of leading points `p ≤ x`. -/
def findPointAfter (pts : IntervalSet) (x : Int) : Nat :=
  (pts.takeWhile (fun p => !(decide (x < p)))).length

/-- Count of boundary points strictly before `x` (interval.hpp
`_find_point_after_or_at` / `_points_before_or_at`): the partition point of
the predicate `p < x`. -/
def findPointAfterOrAt (pts : IntervalSet) (x : Int) : Nat :=
  (pts.takeWhile (fun p => decide (p < x))).length

/-- Point membership (interval.hpp `contains(point)`): the count of
boundaries not after the point is odd. -/
def ivContains (pts : IntervalSet) (x : Int) : Bool :=
  findPointAfter pts x % 2 == 1

/-- Interval check helper (interval.hpp `_check`): the interval's low bound
sits at the requested parity and no boundary point of the set lies inside
the interval. -/
def ivCheck (pts : IntervalSet) (low high : Int) (parity : Nat) : Bool :=
  (findPointAfter pts low % 2 == parity) && (findPointAfter pts low == findPointAfterOrAt pts high)

/-- Pair up consecutive boundary points into intervals (interval.hpp
`iter_intervals`). -/
def toPairs : List Int → List (Int × Int)
  | a :: b :: rest => (a, b) :: toPairs rest
  | _ => []

/-- Whole-set containment (interval.hpp `contains(const interval_set&)`):
every interval of the other set passes `_check` with parity 1. -/
def ivContainsSet (pts other : IntervalSet) : Bool :=
  (toPairs other).all (fun iv => ivCheck pts iv.1 iv.2 1)

/-- Whole-set disjointness (interval.hpp `disjoint(const interval_set&)`):
every interval of the other set passes `_check` with parity 0. -/
def ivDisjointSet (pts other : IntervalSet) : Bool :=
  (toPairs other).all (fun iv => ivCheck pts iv.1 iv.2 0)

/-- Splice one interval into the point list (interval.hpp `_union_insert`).
Each branch of the source erases the interior points and inserts the new
bounds only where the parity requires; the branches below are the net effect
of those erase/insert sequences on the vector. -/
def unionInsert (pts : IntervalSet) (low high : Int) : IntervalSet :=
  let l := findPointAfterOrAt pts low
  let sw := l % 2 == 1
  let r := findPointAfter pts high
  let ew := r % 2 == 1
  if sw && ew then pts.take l ++ pts.drop r
  else if sw && !ew then pts.take l ++ high :: pts.drop r
  else if ew && !sw then pts.take l ++ low :: pts.drop r
  else pts.take l ++ low :: high :: pts.drop r

/-- Subtract one interval from the point list (interval.hpp
`_diff_subtract`): erase the interior, then re-insert each bound whose side
of the cut was inside the set. -/
def diffSubtract (pts : IntervalSet) (low high : Int) : IntervalSet :=
  let l := findPointAfterOrAt pts low
  let sw := l % 2 == 1
  let r := findPointAfter pts high
  let ew := r % 2 == 1
  pts.take l ++ (if sw then [low] else []) ++ (if ew then [high] else []) ++ pts.drop r

/-- Union of interval sets (interval.hpp `union_`): splice in each interval
of the other set. -/
def ivUnion (pts other : IntervalSet) : IntervalSet :=
  (toPairs other).foldl (fun acc iv => unionInsert acc iv.1 iv.2) pts

/-- Difference of interval sets (interval.hpp `difference`): subtract each
interval of the other set. -/
def ivDifference (pts other : IntervalSet) : IntervalSet :=
  (toPairs other).foldl (fun acc iv => diffSubtract acc iv.1 iv.2) pts

/-- One step of the interval-stream merge (interval.hpp `_intersect_one`,
with the initial operand swap resolved up front): after normalising so that
`a` starts no later than `b`, either discard `a`, or emit the overlap and
advance the stream whose interval ends first. Every step consumes one
interval, so the merge loop is driven by a fuel bounded below by the total
interval count; the zero-fuel branch is unreachable from `ivIntersection`. -/
def intersectPairs : Nat → List (Int × Int) → List (Int × Int) → List Int
  | 0, _, _ => []
  | _ + 1, [], _ => []
  | _ + 1, _ :: _, [] => []
  | n + 1, lp :: ls, rp :: rs =>
    let swapped := rp.1 < lp.1
    let a := if swapped then rp else lp
    let b := if swapped then lp else rp
    if !(decide (b.1 < a.2)) then
      if swapped then intersectPairs n (lp :: ls) rs else intersectPairs n ls (rp :: rs)
    else if !(decide (a.2 < b.2)) then
      b.1 :: b.2 ::
        (if swapped then intersectPairs n ls (rp :: rs) else intersectPairs n (lp :: ls) rs)
    else
      b.1 :: a.2 ::
        (if swapped then intersectPairs n (lp :: ls) rs else intersectPairs n ls (rp :: rs))

/-- Intersection of interval sets (interval.hpp `intersection`): merge the
two interval streams. -/
def ivIntersection (pts other : IntervalSet) : IntervalSet :=
  intersectPairs (pts.length + other.length) (toPairs pts) (toPairs other)

/-- Emptiness (interval.hpp `empty` / `num_intervals`): no intervals. -/
def ivEmpty (pts : IntervalSet) : Bool :=
  pts.length / 2 == 0

/-- The test requirement type (test_util.hpp `simple_req`): a package key
and an interval set of admitted versions. Keys are numbered here (the C++
uses strings; only their total order and equality matter to the core). -/
structure SimpleReq where
  key : Nat
  range : IntervalSet
deriving DecidableEq, Repr

/-- Requirement intersection (test_util.hpp): intersect the ranges, `none`
when the result is empty. -/
def SimpleReq.intersection (a b : SimpleReq) : Option SimpleReq :=
  let rng := ivIntersection a.range b.range
  if ivEmpty rng then none else some ⟨a.key, rng⟩

/-- Requirement union (test_util.hpp): unite the ranges, `none` when the
result is empty. -/
def SimpleReq.runion (a b : SimpleReq) : Option SimpleReq :=
  let rng := ivUnion a.range b.range
  if ivEmpty rng then none else some ⟨a.key, rng⟩

/-- Requirement difference (test_util.hpp): subtract the ranges, `none` when
the result is empty. -/
def SimpleReq.rdiff (a b : SimpleReq) : Option SimpleReq :=
  let rng := ivDifference a.range b.range
  if ivEmpty rng then none else some ⟨a.key, rng⟩

/-- Requirement containment (test_util.hpp `implied_by`): the range contains
the other range. -/
def SimpleReq.impliedBy (a b : SimpleReq) : Bool :=
  ivContainsSet a.range b.range

/-- Requirement disjointness (test_util.hpp `excludes`): the ranges are
disjoint. -/
def SimpleReq.excludes (a b : SimpleReq) : Bool :=
  ivDisjointSet a.range b.range

/-- The `ReqOps` bundle for `SimpleReq`, used to run the embedded solver on
concrete inputs. -/
def simpleOps : ReqOps SimpleReq Nat :=
  ⟨SimpleReq.key, SimpleReq.intersection, SimpleReq.runion, SimpleReq.rdiff,
   SimpleReq.impliedBy, SimpleReq.excludes⟩

/-- Lookup in an association list (first entry with the key wins), the
embedding of `std::map::find`. -/
def mapFind [DecidableEq K] : List (K × V) → K → Option V
  | [], _ => none
  | e :: rest, k => if e.1 = k then some e.2 else mapFind rest k

/-- Ordered insert-or-assign into an association list, the embedding of
`std::map::insert_or_assign` / a checked `emplace` (the sources only
`emplace` keys they have just verified absent, so both collapse to this). -/
def mapInsertOrAssign [LinearOrder K] : List (K × V) → K → V → List (K × V)
  | [], k, v => [(k, v)]
  | e :: rest, k, v =>
    if k < e.1 then (k, v) :: e :: rest
    else if k = e.1 then (k, v) :: rest
    else e :: mapInsertOrAssign rest k v

/-- Erase a key from an association list (`std::map::erase`). -/
def mapErase [DecidableEq K] : List (K × V) → K → List (K × V)
  | [], _ => []
  | e :: rest, k => if e.1 = k then rest else e :: mapErase rest k

/-- Ordered duplicate-free insert into a sorted list, the embedding of
`std::set::insert`. -/
def setInsert [LinearOrder K] : List K → K → List K
  | [], k => [k]
  | x :: rest, k =>
    if k < x then k :: x :: rest
    else if k = x then x :: rest
    else x :: setInsert rest k

/-- One entry of the assignment log (the assignment-log header's
`assignment`): the recorded term, the decision level at recording time and,
for a derivation, the index of the causing incompatibility in the store
(`none` marks a decision). -/
structure Assignment (R : Type) where
  term : Term R
  decisionLevel : Nat
  cause : Option Nat
deriving DecidableEq, Repr

/-- A decision is an assignment without a cause (`assignment::is_decision`). -/
def Assignment.isDecision (a : Assignment R) : Bool :=
  a.cause.isNone

/-- The solver's view of the current assignments (the assignment-log
header's `partial_solution` class): the ordered log, the per-key positive
and negative aggregates, and the set of decided keys. -/
structure PartialSol (R K : Type) where
  assignments : List (Assignment R)
  positives : List (K × Term R)
  negatives : List (K × Term R)
  decidedKeys : List K
deriving DecidableEq, Repr

/-- Aggregate update on recording a term (the `_register` member). When a
positive aggregate exists it is narrowed by the new term and the negatives
are untouched; otherwise the new term is first intersected with any stored
negative aggregate, then routed by the sign of that intersection, erasing
the negative slot when the result is positive. `none` models the fatal
`neo_assert`s on an empty narrowing. -/
def psRegister [LinearOrder K] (O : ReqOps R K) (pos neg : List (K × Term R))
    (t : Term R) : Option (List (K × Term R) × List (K × Term R)) :=
  let k := O.key t.requirement
  match mapFind pos k with
  | some p =>
    match Term.intersection O p t with
    | .ok (some i) => some (mapInsertOrAssign pos k i, neg)
    | _ => none
  | none =>
    match mapFind neg k with
    | some n =>
      match Term.intersection O t n with
      | .ok (some u) =>
        if u.positive then some (mapInsertOrAssign pos k u, mapErase neg k)
        else some (pos, mapInsertOrAssign neg k u)
      | _ => none
    | none =>
      if t.positive then some (mapInsertOrAssign pos k t, neg)
      else some (pos, mapInsertOrAssign neg k t)

/-- Relation of the recorded aggregates to a term (the `_relation_to`
member): the positive aggregate answers if present, else the negative one,
else the term is undetermined (`overlap`). -/
def psRelationTo [LinearOrder K] (O : ReqOps R K) (pos neg : List (K × Term R))
    (t : Term R) : SetRel :=
  match mapFind pos (O.key t.requirement) with
  | some p => Term.relationTo O p t
  | none =>
    match mapFind neg (O.key t.requirement) with
    | some n => Term.relationTo O n t
    | none => .overlap

/-- Relation of the whole log state to a term (`relation_to`). -/
def PartialSol.relationTo [LinearOrder K] (O : ReqOps R K) (ps : PartialSol R K)
    (t : Term R) : SetRel :=
  psRelationTo O ps.positives ps.negatives t

/-- A term is satisfied when its relation is `subset` (`satisfies`). -/
def PartialSol.satisfies [LinearOrder K] (O : ReqOps R K) (ps : PartialSol R K)
    (t : Term R) : Bool :=
  match PartialSol.relationTo O ps t with
  | .subset => true
  | _ => false

/-- Record a derivation (`record_derivation`): append the term at the
current count of decided keys with the causing incompatibility, then update
the aggregates. -/
def recordDerivation [LinearOrder K] (O : ReqOps R K) (ps : PartialSol R K)
    (t : Term R) (cause : Nat) : Option (PartialSol R K) :=
  (psRegister O ps.positives ps.negatives t).map (fun pr =>
    { ps with
      assignments := ps.assignments ++ [⟨t, ps.decidedKeys.length, some cause⟩],
      positives := pr.1,
      negatives := pr.2 })

/-- Record a decision (`record_decision`): insert the key into the decided
set (the source asserts it was absent), append the term at the incremented
decision level with no cause (the source asserts the term is positive), then
update the aggregates. -/
def recordDecision [LinearOrder K] (O : ReqOps R K) (ps : PartialSol R K)
    (t : Term R) : Option (PartialSol R K) :=
  if O.key t.requirement ∈ ps.decidedKeys then none
  else if !t.positive then none
  else
    let dk := setInsert ps.decidedKeys (O.key t.requirement)
    (psRegister O ps.positives ps.negatives t).map (fun pr =>
      { assignments := ps.assignments ++ [⟨t, dk.length, none⟩],
        positives := pr.1,
        negatives := pr.2,
        decidedKeys := dk })

/-- The decisions' requirements in log order (`completed_solution`). -/
def completedSolution (ps : PartialSol R K) : List R :=
  (ps.assignments.filter Assignment.isDecision).map (fun a => a.term.requirement)

/-- First undecided positive aggregate in key order
(`next_unsatisfied_term`): the requirement the solver will speculate on
next. -/
def nextUnsatisfiedTerm [LinearOrder K] (ps : PartialSol R K) :
    Option R :=
  (ps.positives.find? (fun e => !(decide (e.1 ∈ ps.decidedKeys)))).map
    (fun e => e.2.requirement)

/-- Replay of a truncated log (the loop at the end of `backtrack_to`):
re-register every assignment and re-insert each decision's key. -/
def psReplay [LinearOrder K] (O : ReqOps R K) :
    List (Assignment R) → List (K × Term R) → List (K × Term R) → List K →
    Option (List (K × Term R) × List (K × Term R) × List K)
  | [], pos, neg, dk => some (pos, neg, dk)
  | a :: rest, pos, neg, dk =>
    match psRegister O pos neg a.term with
    | none => none
    | some pr =>
      psReplay O rest pr.1 pr.2
        (if a.isDecision then setInsert dk (O.key a.term.requirement) else dk)

/-- Truncation of the log (the pop loop of `backtrack_to`): drop trailing
assignments whose level exceeds the target. The source pops from the back
while the last level is above the target; on the empty log it would index
past the end, so this model simply stops there. -/
def truncAbove (lvl : Nat) (asg : List (Assignment R)) : List (Assignment R) :=
  (asg.reverse.dropWhile (fun a => decide (lvl < a.decisionLevel))).reverse

/-- Backtracking (`backtrack_to`): truncate the log, clear the aggregates
and the decided set, and rebuild them by replaying the remaining log. -/
def backtrackTo [LinearOrder K] (O : ReqOps R K) (ps : PartialSol R K)
    (lvl : Nat) : Option (PartialSol R K) :=
  let asg := truncAbove lvl ps.assignments
  (psReplay O asg [] [] []).map (fun st => ⟨asg, st.1, st.2.1, st.2.2⟩)

/-- Satisfier search (`satisfier_of`): walk the log accumulating the
intersection of same-key assignments until the accumulated term implies the
target; return that assignment and its position. `none` models the fatal
assertion when the walk ends without a satisfier, and likewise the undefined
dereference when the running intersection becomes empty. -/
def satisfierOfAux [LinearOrder K] (O : ReqOps R K) (t : Term R) :
    List (Assignment R) → Nat → Option (Term R) → Option (Nat × Assignment R)
  | [], _, _ => none
  | a :: rest, i, acc =>
    if O.key a.term.requirement = O.key t.requirement then
      match
        (match acc with
         | none => some a.term
         | some x =>
           match Term.intersection O x a.term with
           | .ok (some y) => some y
           | _ => none) with
      | none => none
      | some acc2 =>
        if Term.impliedBy O t acc2 then some (i, a)
        else satisfierOfAux O t rest (i + 1) (some acc2)
    else satisfierOfAux O t rest (i + 1) acc

/-- Entry point of the satisfier search over a whole log. -/
def satisfierOf [LinearOrder K] (O : ReqOps R K) (asg : List (Assignment R))
    (t : Term R) : Option (Nat × Assignment R) :=
  satisfierOfAux O t asg 0 none

/-- Accumulated state of `build_backtrack_info`: the most recent term and
satisfier (with their positions), the level to backtrack to, and the
optional over-satisfaction difference. -/
structure BtAcc (R : Type) where
  termIdx : Nat
  term : Term R
  satIdx : Nat
  satisfier : Assignment R
  prevLevel : Nat
  diff : Option (Term R)
deriving DecidableEq, Repr

/-- Loop body of `build_backtrack_info`: scan the incompatibility's terms,
keeping the satisfier that appears latest in the log (pointer comparison in
the source is index comparison here), folding the other satisfiers' levels
into `prevLevel`, and, whenever the current term owns the latest satisfier,
recomputing the difference and folding in the level of the satisfier of the
difference's inverse. `.error ()` models the fatal satisfier assertions and
a fatal term difference. -/
def buildBtAux [LinearOrder K] (O : ReqOps R K) (asg : List (Assignment R)) :
    List (Term R) → Nat → Option (BtAcc R) → Except Unit (Option (BtAcc R))
  | [], _, acc => .ok acc
  | t :: ts, i, acc =>
    match satisfierOf O asg t with
    | none => .error ()
    | some (si, sa) =>
      let acc1 : BtAcc R :=
        match acc with
        | none => ⟨i, t, si, sa, 0, none⟩
        | some s =>
          if s.satIdx < si then
            ⟨i, t, si, sa, max s.prevLevel s.satisfier.decisionLevel, none⟩
          else
            { s with prevLevel := max s.prevLevel sa.decisionLevel }
      if acc1.termIdx = i then
        match Term.difference O acc1.satisfier.term acc1.term with
        | .error () => .error ()
        | .ok none => buildBtAux O asg ts (i + 1) (some { acc1 with diff := none })
        | .ok (some d) =>
          match satisfierOf O asg (Term.inverse d) with
          | none => .error ()
          | some (_, dsa) =>
            let acc2 := { acc1 with diff := some d }
            buildBtAux O asg ts (i + 1)
              (some { acc2 with prevLevel := max dsa.decisionLevel acc2.prevLevel })
      else buildBtAux O asg ts (i + 1) (some acc1)

/-- Backtrack-information builder (`build_backtrack_info`): fold over the
terms starting from no satisfier; the result is `none` exactly when the fold
never saw a term. -/
def buildBtInfo [LinearOrder K] (O : ReqOps R K) (asg : List (Assignment R))
    (ts : List (Term R)) : Except Unit (Option (BtAcc R)) :=
  buildBtAux O asg ts 0 none

/-- Provenance of an incompatibility (incompatibility.hpp's cause variant):
a root requirement, an unavailable candidate, a dependency edge, or the
resolvent of two earlier store entries (referenced by index). -/
inductive Cause where
  | root
  | unavailable
  | dependency
  | conflictC (left right : Nat)
deriving DecidableEq, Repr

/-- A clause of terms that must never all hold (incompatibility.hpp
`incompatibility`), with its cause. -/
structure IC (R : Type) where
  terms : List (Term R)
  cause : Cause
deriving DecidableEq, Repr

/-- Ordered insert by key for the constructor's sort. -/
def insertByKey [LinearOrder K] (O : ReqOps R K) (t : Term R) :
    List (Term R) → List (Term R)
  | [] => [t]
  | u :: rest =>
    if O.key t.requirement < O.key u.requirement then t :: u :: rest
    else u :: insertByKey O t rest

/-- Sort of the term list by key (the `std::sort` in `_coalesce`). -/
def sortByKey [LinearOrder K] (O : ReqOps R K) : List (Term R) → List (Term R)
  | [] => []
  | t :: rest => insertByKey O t (sortByKey O rest)

/-- Merge of consecutive same-key terms by intersection (`_coalesce_at`):
each run is folded left-to-right, and the source asserts every intersection
is non-empty (`none` models that assertion and a fatal intersection). Each
step shortens the list, so the loop is driven by a fuel bounded below by
the term count; the zero-fuel branch is unreachable from `mkIC`. -/
def coalesceSorted [LinearOrder K] (O : ReqOps R K) :
    Nat → List (Term R) → Option (List (Term R))
  | _, [] => some []
  | _, [t] => some [t]
  | 0, _ :: _ :: _ => none
  | n + 1, t :: u :: rest =>
    if O.key t.requirement = O.key u.requirement then
      match Term.intersection O t u with
      | .ok (some v) => coalesceSorted O n (v :: rest)
      | _ => none
    else (coalesceSorted O n (u :: rest)).map (t :: ·)

/-- Incompatibility construction (the `incompatibility` constructor): sort
the terms by key and coalesce same-key runs. -/
def mkIC [LinearOrder K] (O : ReqOps R K) (ts : List (Term R)) (c : Cause) :
    Option (IC R) :=
  (coalesceSorted O ts.length (sortByKey O ts)).map (fun l => ⟨l, c⟩)

/-- The failure explainer's classification events (failure.hpp's `explain`
namespace). -/
inductive ExplainKind (R : Type) where
  | noSolution
  | dependencyK (dependent dependee : R)
  | conflictK (a b : R)
  | disallowed (r : R)
  | unavailableK (r : R)
  | needed (r : R)
  | compromise (left right result : R)
deriving DecidableEq, Repr

/-- Classification of an incompatibility's shape (failure.hpp
`failure_writer::_transform_ic`): branch on the number of terms and their
signs; `none` models the `_die()` internal-error paths. In the two-term
mixed case the source's `std::minmax` by sign picks the negative term as the
dependency and the positive as the dependent. -/
def transformIC (ic : IC R) : Option (ExplainKind R) :=
  match ic.terms with
  | [t0, t1] =>
    if t0.positive != t1.positive then
      if t0.positive then some (.dependencyK t0.requirement t1.requirement)
      else some (.dependencyK t1.requirement t0.requirement)
    else if t0.positive then some (.conflictK t0.requirement t1.requirement)
    else none
  | [t0] =>
    if t0.positive then
      if ic.cause = Cause.unavailable then some (.unavailableK t0.requirement)
      else some (.disallowed t0.requirement)
    else some (.needed t0.requirement)
  | [t0, t1, t2] =>
    if t0.positive && t1.positive && !t2.positive then
      some (.compromise t0.requirement t1.requirement t2.requirement)
    else none
  | [] => some .noSolution
  | _ => none

/-- The client-supplied package provider (solve.hpp's `provider` concept):
the preferred candidate inside a requirement, and a candidate's direct
dependencies. -/
structure Provider (R : Type) where
  bestCandidate : R → Option R
  requirementsOf : R → List R

/-- The append-only incompatibility store (solve.hpp `ic_record`): the
primary list (stable references become indices) and the key-sorted
secondary index of store positions. -/
structure ICRecord (K R : Type) where
  ics : List (IC R)
  byKey : List (K × List Nat)
deriving Repr

/-- Store insertion (`emplace_record`): append the incompatibility and, for
each of its terms, append the new index under the term's key, creating the
key's slot at its sorted position if absent. -/
def icRecordAdd [LinearOrder K] (O : ReqOps R K) (rec : ICRecord K R)
    (ic : IC R) : ICRecord K R :=
  let idx := rec.ics.length
  let bk := ic.terms.foldl (fun bk t =>
      let k := O.key t.requirement
      match mapFind bk k with
      | some idxs => mapInsertOrAssign bk k (idxs ++ [idx])
      | none => mapInsertOrAssign bk k [idx]) rec.byKey
  ⟨rec.ics ++ [ic], bk⟩

/-- Index lookup (`for_name`): the store positions of every incompatibility
mentioning the key. The source asserts the key was seen; a missing key
yields no work here. -/
def forName [LinearOrder K] (rec : ICRecord K R) (k : K) : List Nat :=
  (mapFind rec.byKey k).getD []

/-- Result of examining one incompatibility (solve.hpp's `conflict` /
`no_conflict` / `almost_conflict` variant). -/
inductive ConflictResult (α : Type) where
  | conflict
  | noConflict
  | almostConflict (t : α)
deriving DecidableEq, Repr

/-- Scan loop of `check_conflict`: a disjoint term ends the scan with no
conflict; a second undetermined term likewise; otherwise the single
undetermined term is remembered. An exhausted scan is a conflict when every
term was satisfied, else an almost-conflict on the remembered term. -/
def checkConflictAux (rel : α → SetRel) : List α → Option α → ConflictResult α
  | [], none => .conflict
  | [], some t => .almostConflict t
  | t :: ts, acc =>
    match rel t with
    | .disjoint => .noConflict
    | .overlap =>
      match acc with
      | some _ => .noConflict
      | none => checkConflictAux rel ts (some t)
    | .subset => checkConflictAux rel ts acc

/-- Examination of an incompatibility against the current assignments
(solve.hpp `check_conflict`): scan its terms with the log state's relation
query. -/
def checkConflictIC [LinearOrder K] (O : ReqOps R K) (ps : PartialSol R K)
    (ts : List (Term R)) : ConflictResult (Term R) :=
  checkConflictAux (fun t => PartialSol.relationTo O ps t) ts none

/-- Failure modes of a solver run: a fatal internal assertion, resolution
failure rooted at a store index, or exhausted fuel (the C++ loops carry no
bound; fuel makes the embedding total). -/
inductive SolveErr where
  | fatal
  | unsolvable (rootIdx : Nat)
  | outOfFuel
deriving DecidableEq, Repr

/-- Mutable state of a solver run (solve.hpp `solver`): the store, the set
of keys whose aggregates changed, and the assignment-log state. -/
structure SolverState (K R : Type) where
  record : ICRecord K R
  changed : List K
  sln : PartialSol R K
deriving Repr

/-- Conflict resolution (solve.hpp `resolve_conflict`): repeatedly build
backtrack information for the current incompatibility; when the satisfier is
a decision or strictly above the previous-satisfier level, backtrack and
return the current incompatibility as the learned cause; otherwise resolve
against the satisfier's cause (all terms but the most recent one, the
cause's terms off the satisfier's key, and the inverted difference when
present) and continue with the recorded resolvent. -/
def resolveConflict [LinearOrder K] (O : ReqOps R K) :
    Nat → SolverState K R → Nat → Except SolveErr (SolverState K R × Nat)
  | 0, _, _ => .error .outOfFuel
  | fuel + 1, st, icIdx =>
    match st.record.ics.get? icIdx with
    | none => .error .fatal
    | some ic =>
      match buildBtInfo O st.sln.assignments ic.terms with
      | .error () => .error .fatal
      | .ok none => .error (.unsolvable icIdx)
      | .ok (some info) =>
        if info.satisfier.isDecision || decide (info.prevLevel < info.satisfier.decisionLevel) then
          match backtrackTo O st.sln info.prevLevel with
          | none => .error .fatal
          | some sln2 => .ok ({ st with sln := sln2 }, icIdx)
        else
          match info.satisfier.cause with
          | none => .error .fatal
          | some causeIdx =>
            match st.record.ics.get? causeIdx with
            | none => .error .fatal
            | some causeIc =>
              let terms1 := ic.terms.eraseIdx info.termIdx
              let terms2 := causeIc.terms.filter (fun t =>
                decide (¬ O.key t.requirement = O.key info.satisfier.term.requirement))
              let terms3 :=
                match info.diff with
                | some d => terms1 ++ terms2 ++ [Term.inverse d]
                | none => terms1 ++ terms2
              match mkIC O terms3 (Cause.conflictC icIdx causeIdx) with
              | none => .error .fatal
              | some newIc =>
                let newIdx := st.record.ics.length
                resolveConflict O fuel { st with record := icRecordAdd O st.record newIc } newIdx

/-- Propagation of one incompatibility (solve.hpp `propagate_one`): an
almost-conflict derives the inverse of its undetermined term and marks its
key changed; a conflict is resolved, the learned cause re-examined (the
source asserts it is an almost-conflict), its term derived, and the changed
set reset to that key alone, stopping propagation for the current key. -/
def propagateOne [LinearOrder K] (O : ReqOps R K) (fuel : Nat)
    (st : SolverState K R) (icIdx : Nat) : Except SolveErr (SolverState K R × Bool) :=
  match st.record.ics.get? icIdx with
  | none => .error .fatal
  | some ic =>
    match checkConflictIC O st.sln ic.terms with
    | .almostConflict t =>
      match recordDerivation O st.sln (Term.inverse t) icIdx with
      | none => .error .fatal
      | some sln2 =>
        .ok ({ { st with sln := sln2 } with
               changed := setInsert st.changed (O.key t.requirement) }, true)
    | .conflict => do
      let (st2, rootIdx) ← resolveConflict O fuel st icIdx
      match st2.record.ics.get? rootIdx with
      | none => .error .fatal
      | some rootIc =>
        match checkConflictIC O st2.sln rootIc.terms with
        | .almostConflict t2 =>
          match recordDerivation O st2.sln (Term.inverse t2) rootIdx with
          | none => .error .fatal
          | some sln3 =>
            .ok ({ st2 with sln := sln3, changed := [O.key t2.requirement] }, false)
        | _ => .error .fatal
    | .noConflict => .ok (st, true)

/-- Propagation over the incompatibilities recorded for one key
(solve.hpp `propagate_for`): visit the key's indices in order, stopping
early when one of them reported a conflict. -/
def propagateFor [LinearOrder K] (O : ReqOps R K) (fuel : Nat) :
    SolverState K R → List Nat → Except SolveErr (SolverState K R)
  | st, [] => .ok st
  | st, i :: rest => do
    let (st2, cont) ← propagateOne O fuel st i
    if cont then propagateFor O fuel st2 rest else .ok st2

/-- Unit propagation (solve.hpp `unit_propagation`): repeatedly extract the
smallest changed key and propagate its incompatibilities, until no key is
marked changed. -/
def unitPropagation [LinearOrder K] (O : ReqOps R K) :
    Nat → SolverState K R → Except SolveErr (SolverState K R)
  | 0, _ => .error .outOfFuel
  | fuel + 1, st =>
    match st.changed with
    | [] => .ok st
    | k :: rest => do
      let st1 : SolverState K R := { st with changed := rest }
      let st2 ← propagateFor O fuel st1 (forName st1.record k)
      unitPropagation O fuel st2

/-- Dependency loop of `speculate_one_decision`: a self-dependency is a
fatal error; each dependency records a two-term incompatibility, and the
conflict flag picks up any of them whose terms — other than the candidate's
own key — are all already satisfied. -/
def specDeps [LinearOrder K] (O : ReqOps R K) (cand : R) :
    List R → SolverState K R → Bool → Except SolveErr (SolverState K R × Bool)
  | [], st, fc => .ok (st, fc)
  | req :: rest, st, fc =>
    if O.key req = O.key cand then .error .fatal
    else
      match mkIC O [Term.mk cand true, Term.mk req false] .dependency with
      | none => .error .fatal
      | some newIc =>
        let st2 := { st with record := icRecordAdd O st.record newIc }
        let fc2 := fc || newIc.terms.all (fun t =>
            decide (O.key t.requirement = O.key cand) || PartialSol.satisfies O st2.sln t)
        specDeps O cand rest st2 fc2

/-- Speculation (solve.hpp `speculate_one_decision`): take the first
undecided positive aggregate; an absent candidate records an unavailability
incompatibility, otherwise the candidate's dependencies are recorded and the
candidate is decided unless one of them already conflicts; either way the
affected key is marked changed. -/
def speculateOneDecision [LinearOrder K] (O : ReqOps R K) (P : Provider R)
    (st : SolverState K R) : Except SolveErr (SolverState K R) :=
  match nextUnsatisfiedTerm st.sln with
  | none => .ok st
  | some nextReq =>
    match P.bestCandidate nextReq with
    | none =>
      match mkIC O [Term.mk nextReq true] .unavailable with
      | none => .error .fatal
      | some ic =>
        .ok { { st with record := icRecordAdd O st.record ic } with
              changed := setInsert st.changed (O.key nextReq) }
    | some cand => do
      let (st2, fc) ← specDeps O cand (P.requirementsOf cand) st false
      let sln2 ←
        if fc then pure st2.sln
        else
          match recordDecision O st2.sln (Term.mk cand true) with
          | none => Except.error SolveErr.fatal
          | some s => pure s
      .ok { st2 with sln := sln2, changed := setInsert st2.changed (O.key cand) }

/-- Solver main loop (solve.hpp `solve`): while keys are marked changed,
unit-propagate and then speculate one decision; on exit return the decided
requirements. -/
def solveLoop [LinearOrder K] (O : ReqOps R K) (P : Provider R) :
    Nat → SolverState K R → Except SolveErr (List R)
  | 0, _ => .error .outOfFuel
  | fuel + 1, st =>
    if st.changed.isEmpty then .ok (completedSolution st.sln)
    else do
      let st2 ← unitPropagation O fuel st
      let st3 ← speculateOneDecision O P st2
      solveLoop O P fuel st3

/-- Root preload (solve.hpp `preload_root`): record the negated root as a
root-cause incompatibility and mark its key changed. -/
def preloadRoot [LinearOrder K] (O : ReqOps R K) (st : SolverState K R)
    (req : R) : Except SolveErr (SolverState K R) :=
  match mkIC O [Term.mk req false] .root with
  | none => .error .fatal
  | some ic =>
    .ok { { st with record := icRecordAdd O st.record ic } with
          changed := setInsert st.changed (O.key req) }

/-- A freshly constructed solver: empty store, no changed keys, empty log. -/
def initSolver : SolverState K R :=
  ⟨⟨[], []⟩, [], ⟨[], [], [], []⟩⟩

/-- Entry point (the free `pubgrub::solve`): preload every root, then run
the loop. -/
def solve [LinearOrder K] (O : ReqOps R K) (P : Provider R) (fuel : Nat)
    (roots : List R) : Except SolveErr (List R) := do
  let st ← roots.foldlM (preloadRoot O) initSolver
  solveLoop O P fuel st

/-- Number of decisions in a log segment. -/
def countDecisions (l : List (Assignment R)) : Nat :=
  l.countP Assignment.isDecision

/-- Correct levelling of a log, starting from `d` prior decisions: each
entry's recorded level is the number of decisions recorded at the time of
its insertion — the prior count for a derivation, the incremented count for
a decision — and the count threads forward accordingly. -/
def wellLeveled : Nat → List (Assignment R) → Bool
  | _, [] => true
  | d, a :: rest =>
    let d2 := if a.isDecision then d + 1 else d
    (a.decisionLevel == d2) && wellLeveled d2 rest

/-- The keys of the decisions of a log, in log order. -/
def decisionKeys (O : ReqOps R K) (l : List (Assignment R)) : List K :=
  (l.filter Assignment.isDecision).map (fun a => O.key a.term.requirement)

/-- The decided-key set a log should induce: the decisions' keys inserted in
order into an initially empty ordered set. -/
def canonDecided [LinearOrder K] (O : ReqOps R K) (l : List (Assignment R)) : List K :=
  (decisionKeys O l).foldl setInsert []

/-- A level sequence that never decreases. -/
def levelsMonotone : List Nat → Bool
  | [] => true
  | [_] => true
  | a :: b :: rest => decide (a ≤ b) && levelsMonotone (b :: rest)

/-- The log-state invariant of claim C6: the log is correctly levelled from
zero prior decisions, the stored decided-key set is the one the log induces,
and no key is decided twice. -/
def PSInv [LinearOrder K] (O : ReqOps R K) (ps : PartialSol R K) : Prop :=
  wellLeveled 0 ps.assignments = true ∧
  ps.decidedKeys = canonDecided O ps.assignments ∧
  (decisionKeys O ps.assignments).Nodup

/-- A provider that violates the provider contract of spec section 6/7: for
package 1 it answers the request `1 ∈ [1,2)` with the candidate `1 ∈ [0,2)`,
which is not inside the requested range. The spec requires this to surface
as a fatal error; the code never checks it. -/
def badProvider : Provider SimpleReq where
  bestCandidate := fun r =>
    if r.key = 0 then some ⟨0, [1, 2]⟩
    else if r.key = 1 then some ⟨1, [0, 2]⟩
    else none
  requirementsOf := fun r => if r.key = 0 then [⟨1, [1, 2]⟩] else []

/-- Closure of a solution under the provider's requirements: every
requirement of every returned decision is implied by some returned decision
(term implication, so keys must match and the decision's range must be
contained in the requirement's). -/
def solClosed [DecidableEq K] (O : ReqOps R K) (P : Provider R) (sol : List R) : Bool :=
  sol.all (fun d => (P.requirementsOf d).all (fun r =>
    sol.any (fun d2 => Term.impliedBy O (Term.mk r true) (Term.mk d2 true))))

theorem checkConflictAux_cons_disjoint (rel : α → SetRel) (t : α) (ts : List α)
    (acc : Option α) (hrt : rel t = SetRel.disjoint) :
    checkConflictAux rel (t :: ts) acc = ConflictResult.noConflict := by
  simp [checkConflictAux, hrt]

theorem checkConflictAux_cons_overlap_some (rel : α → SetRel) (t : α) (ts : List α)
    (s : α) (hrt : rel t = SetRel.overlap) :
    checkConflictAux rel (t :: ts) (some s) = ConflictResult.noConflict := by
  simp [checkConflictAux, hrt]

theorem checkConflictAux_cons_overlap_none (rel : α → SetRel) (t : α) (ts : List α)
    (hrt : rel t = SetRel.overlap) :
    checkConflictAux rel (t :: ts) none = checkConflictAux rel ts (some t) := by
  simp [checkConflictAux, hrt]

theorem checkConflictAux_cons_subset (rel : α → SetRel) (t : α) (ts : List α)
    (acc : Option α) (hrt : rel t = SetRel.subset) :
    checkConflictAux rel (t :: ts) acc = checkConflictAux rel ts acc := by
  simp [checkConflictAux, hrt]

theorem checkConflictAux_disjoint (rel : α → SetRel) (l : List α) (acc : Option α)
    (h : ∃ t ∈ l, rel t = SetRel.disjoint) :
    checkConflictAux rel l acc = ConflictResult.noConflict := by
  induction l generalizing acc with
  | nil => simp at h
  | cons t ts ih =>
    obtain ⟨u, hu, hrel⟩ := h
    rcases List.mem_cons.mp hu with rfl | hmem
    · exact checkConflictAux_cons_disjoint rel u ts acc hrel
    · cases hrt : rel t with
      | disjoint => exact checkConflictAux_cons_disjoint rel t ts acc hrt
      | overlap =>
        cases acc with
        | some s => exact checkConflictAux_cons_overlap_some rel t ts s hrt
        | none =>
          rw [checkConflictAux_cons_overlap_none rel t ts hrt]
          exact ih (some t) ⟨u, hmem, hrel⟩
      | subset =>
        rw [checkConflictAux_cons_subset rel t ts acc hrt]
        exact ih acc ⟨u, hmem, hrel⟩

theorem checkConflictAux_overlap_seen (rel : α → SetRel) (l : List α) (s : α)
    (h : 1 ≤ l.countP (fun t => rel t == SetRel.overlap)) :
    checkConflictAux rel l (some s) = ConflictResult.noConflict := by
  induction l with
  | nil => simp [List.countP_nil] at h
  | cons t ts ih =>
    rw [List.countP_cons] at h
    cases hrt : rel t with
    | disjoint => exact checkConflictAux_cons_disjoint rel t ts (some s) hrt
    | overlap => exact checkConflictAux_cons_overlap_some rel t ts s hrt
    | subset =>
      rw [checkConflictAux_cons_subset rel t ts (some s) hrt]
      refine ih ?_
      have ht2 : (rel t == SetRel.overlap) = false := by simp [hrt]
      rw [ht2] at h
      simpa using h

theorem checkConflictAux_two_overlaps (rel : α → SetRel) (l : List α)
    (h : 2 ≤ l.countP (fun t => rel t == SetRel.overlap)) :
    checkConflictAux rel l none = ConflictResult.noConflict := by
  induction l with
  | nil => simp [List.countP_nil] at h
  | cons t ts ih =>
    rw [List.countP_cons] at h
    cases hrt : rel t with
    | disjoint => exact checkConflictAux_cons_disjoint rel t ts none hrt
    | overlap =>
      rw [checkConflictAux_cons_overlap_none rel t ts hrt]
      refine checkConflictAux_overlap_seen rel ts t ?_
      have ht2 : (rel t == SetRel.overlap) = true := by simp [hrt]
      rw [ht2, if_pos rfl] at h
      omega
    | subset =>
      rw [checkConflictAux_cons_subset rel t ts none hrt]
      refine ih ?_
      have ht2 : (rel t == SetRel.overlap) = false := by simp [hrt]
      rw [ht2] at h
      simpa using h

theorem checkConflictAux_all_subset (rel : α → SetRel) (l : List α) (acc : Option α)
    (h : ∀ t ∈ l, rel t = SetRel.subset) :
    checkConflictAux rel l acc =
      (match acc with
       | none => ConflictResult.conflict
       | some t => ConflictResult.almostConflict t) := by
  induction l generalizing acc with
  | nil => cases acc <;> rfl
  | cons t ts ih =>
    have hrt := h t (List.mem_cons_self t ts)
    rw [checkConflictAux_cons_subset rel t ts acc hrt]
    exact ih acc (fun u hu => h u (List.mem_cons_of_mem t hu))

theorem checkConflictAux_single_overlap (rel : α → SetRel) (l : List α) (t : α)
    (hmem : t ∈ l) (ht : rel t = SetRel.overlap)
    (hcount : l.countP (fun u => rel u == SetRel.overlap) = 1)
    (hnodis : ∀ u ∈ l, rel u ≠ SetRel.disjoint) :
    checkConflictAux rel l none = ConflictResult.almostConflict t := by
  induction l with
  | nil => simp at hmem
  | cons u us ih =>
    rw [List.countP_cons] at hcount
    cases hru : rel u with
    | disjoint => exact absurd hru (hnodis u (List.mem_cons_self u us))
    | overlap =>
      have hru2 : (rel u == SetRel.overlap) = true := by simp [hru]
      rw [hru2, if_pos rfl] at hcount
      have hus : us.countP (fun v => rel v == SetRel.overlap) = 0 := by omega
      have htu : t = u := by
        rcases List.mem_cons.mp hmem with rfl | hmem2
        · rfl
        · exfalso
          have hpos : 0 < us.countP (fun v => rel v == SetRel.overlap) :=
            List.countP_pos_iff.mpr ⟨t, hmem2, by simp [ht]⟩
          omega
      subst htu
      have hsub : ∀ v ∈ us, rel v = SetRel.subset := by
        intro v hv
        cases hrv : rel v with
        | disjoint => exact absurd hrv (hnodis v (List.mem_cons_of_mem t hv))
        | overlap =>
          exfalso
          have hpos : 0 < us.countP (fun w => rel w == SetRel.overlap) :=
            List.countP_pos_iff.mpr ⟨v, hv, by simp [hrv]⟩
          omega
        | subset => rfl
      rw [checkConflictAux_cons_overlap_none rel t us ht]
      exact checkConflictAux_all_subset rel us (some t) hsub
    | subset =>
      have htu : t ≠ u := fun he => by rw [he, hru] at ht; cases ht
      have hmem2 : t ∈ us := by
        rcases List.mem_cons.mp hmem with rfl | hmem3
        · exact absurd rfl htu
        · exact hmem3
      rw [checkConflictAux_cons_subset rel u us none hru]
      refine ih hmem2 ?_ (fun v hv => hnodis v (List.mem_cons_of_mem u hv))
      have hru2 : (rel u == SetRel.overlap) = false := by simp [hru]
      rw [hru2] at hcount
      simpa using hcount

/-- Claim C2: examining an incompatibility's terms against the current
assignments, a disjoint term means no conflict; two or more undetermined
(overlap) terms mean no conflict; all terms satisfied (subset) means a
conflict; and exactly one undetermined term with none disjoint is an
almost-conflict carrying that very term. -/
theorem c2_check_conflict_classification [LinearOrder K] (O : ReqOps R K)
    (ps : PartialSol R K) (ts : List (Term R)) :
    ((∃ t ∈ ts, PartialSol.relationTo O ps t = SetRel.disjoint) →
       checkConflictIC O ps ts = ConflictResult.noConflict) ∧
    (2 ≤ ts.countP (fun t => PartialSol.relationTo O ps t == SetRel.overlap) →
       checkConflictIC O ps ts = ConflictResult.noConflict) ∧
    ((∀ t ∈ ts, PartialSol.relationTo O ps t = SetRel.subset) →
       checkConflictIC O ps ts = ConflictResult.conflict) ∧
    (∀ t ∈ ts, PartialSol.relationTo O ps t = SetRel.overlap →
       ts.countP (fun u => PartialSol.relationTo O ps u == SetRel.overlap) = 1 →
       (∀ u ∈ ts, PartialSol.relationTo O ps u ≠ SetRel.disjoint) →
       checkConflictIC O ps ts = ConflictResult.almostConflict t) := by
  refine ⟨?_, ?_, ?_, ?_⟩
  · intro h
    exact checkConflictAux_disjoint _ ts none h
  · intro h
    exact checkConflictAux_two_overlaps _ ts h
  · intro h
    exact checkConflictAux_all_subset _ ts none h
  · intro t hmem ht hcount hnodis
    exact checkConflictAux_single_overlap _ ts t hmem ht hcount hnodis

theorem c2_witness :
    checkConflictIC simpleOps ⟨[], [(0, Term.mk ⟨0, [1, 3]⟩ true)], [], []⟩
        [Term.mk ⟨0, [5, 6]⟩ true] = ConflictResult.noConflict ∧
    checkConflictIC simpleOps ⟨[], [(0, Term.mk ⟨0, [1, 3]⟩ true)], [], []⟩
        [Term.mk ⟨0, [2, 6]⟩ true, Term.mk ⟨1, [1, 2]⟩ true] = ConflictResult.noConflict ∧
    checkConflictIC simpleOps ⟨[], [(0, Term.mk ⟨0, [1, 3]⟩ true)], [], []⟩
        [Term.mk ⟨0, [0, 4]⟩ true] = ConflictResult.conflict ∧
    checkConflictIC simpleOps ⟨[], [(0, Term.mk ⟨0, [1, 3]⟩ true)], [], []⟩
        [Term.mk ⟨0, [0, 4]⟩ true, Term.mk ⟨1, [1, 2]⟩ true] =
      ConflictResult.almostConflict (Term.mk ⟨1, [1, 2]⟩ true) := by
  refine ⟨?_, ?_, ?_, ?_⟩
  · exact (c2_check_conflict_classification simpleOps _ _).1
      ⟨Term.mk ⟨0, [5, 6]⟩ true, by decide, by decide⟩
  · exact (c2_check_conflict_classification simpleOps _ _).2.1 (by decide)
  · exact (c2_check_conflict_classification simpleOps _ _).2.2.1 (by decide)
  · exact (c2_check_conflict_classification simpleOps _ _).2.2.2
      (Term.mk ⟨1, [1, 2]⟩ true) (by decide) (by decide) (by decide) (by decide)

/-- Claim C3: same-key term intersection by sign quadrant — positive with
positive gives the positive intersection of the requirements (empty giving
none); positive with negative gives the positive difference (empty giving
none); negative with negative gives the negative union when the union is
representable, and fails fatally when it is not. -/
theorem c3_term_intersection_quadrants [DecidableEq K] (O : ReqOps R K) (a b : Term R)
    (hk : O.key a.requirement = O.key b.requirement) :
    (a.positive = true → b.positive = true →
       Term.intersection O a b =
         Except.ok ((O.isect a.requirement b.requirement).map (fun r => Term.mk r true))) ∧
    (a.positive = true → b.positive = false →
       Term.intersection O a b =
         Except.ok ((O.rdiff a.requirement b.requirement).map (fun r => Term.mk r true))) ∧
    (a.positive = false → b.positive = false →
       Term.intersection O a b =
         (match O.runion a.requirement b.requirement with
          | some u => Except.ok (some (Term.mk u false))
          | none => Except.error ())) := by
  refine ⟨?_, ?_, ?_⟩ <;> intro ha hb <;> simp [Term.intersection, hk, ha, hb]

theorem c3_witness :
    Term.intersection simpleOps (Term.mk ⟨0, [1, 4]⟩ true) (Term.mk ⟨0, [2, 6]⟩ true) =
      Except.ok (some (Term.mk ⟨0, [2, 4]⟩ true)) :=
  Eq.trans
    ((c3_term_intersection_quadrants simpleOps (Term.mk ⟨0, [1, 4]⟩ true)
        (Term.mk ⟨0, [2, 6]⟩ true) rfl).1 rfl rfl)
    rfl

/-- Claim C9: on terms whose keys differ, both `implied_by` and `excludes`
are total and simply answer `false` — no assertion fires, even though the
spec calls cross-key operations undefined. -/
theorem c9_cross_key_tests_false [DecidableEq K] (O : ReqOps R K) (t u : Term R)
    (hk : O.key t.requirement ≠ O.key u.requirement) :
    Term.impliedBy O t u = false ∧ Term.excludes O t u = false := by
  constructor <;> simp [Term.impliedBy, Term.excludes, hk]

theorem c9_witness :
    Term.impliedBy simpleOps (Term.mk ⟨0, [1, 2]⟩ true) (Term.mk ⟨1, [1, 2]⟩ true) = false ∧
    Term.excludes simpleOps (Term.mk ⟨0, [1, 2]⟩ true) (Term.mk ⟨1, [1, 2]⟩ true) = false :=
  c9_cross_key_tests_false simpleOps _ _ (by decide)

theorem findPointAfter_eq_countP (pts : IntervalSet) (x : Int)
    (hs : List.Pairwise (· < ·) pts) :
    findPointAfter pts x = pts.countP (fun p => decide (p ≤ x)) := by
  induction pts with
  | nil => rfl
  | cons p rest ih =>
    rcases List.pairwise_cons.mp hs with ⟨hp, hrest⟩
    rw [List.countP_cons]
    by_cases hpx : x < p
    · have h1 : findPointAfter (p :: rest) x = 0 := by
        simp [findPointAfter, List.takeWhile, hpx]
      have h2 : rest.countP (fun q => decide (q ≤ x)) = 0 := by
        refine List.countP_eq_zero.mpr ?_
        intro q hq
        have hq2 := hp q hq
        simp only [decide_eq_true_eq]
        omega
      have h3 : (decide (p ≤ x)) = false := by
        simp only [decide_eq_false_iff_not]
        omega
      rw [h1, h2, h3]
      rfl
    · have h1 : findPointAfter (p :: rest) x = findPointAfter rest x + 1 := by
        simp [findPointAfter, List.takeWhile, hpx]
      have h3 : (decide (p ≤ x)) = true := by
        simp only [decide_eq_true_eq]
        omega
      rw [h1, h3, ih hrest]
      simp

/-- Claim C7 counterexample: for the set `[1,2)` at the point `1`,
`contains` answers true although the number of boundary points strictly
below `1` is even — the rank the code uses counts points less than or equal
to the query, not strictly less. -/
theorem c7_counterexample :
    ivContains [1, 2] 1 = true ∧
    ([1, 2] : List Int).countP (fun p => decide (p < 1)) % 2 = 0 :=
  ⟨rfl, rfl⟩

/-- Claim C7 as amended: on a strictly increasing boundary list, `contains`
answers true exactly when the number of boundary points less than OR EQUAL
to the query point is odd. -/
theorem c7_contains_iff_le_count_odd (pts : IntervalSet) (x : Int)
    (hs : List.Pairwise (· < ·) pts) :
    ivContains pts x = (pts.countP (fun p => decide (p ≤ x)) % 2 == 1) := by
  rw [ivContains, findPointAfter_eq_countP pts x hs]

theorem c7_witness :
    ivContains [1, 2] 1 = (([1, 2] : List Int).countP (fun p => decide (p ≤ 1)) % 2 == 1) :=
  c7_contains_iff_le_count_odd [1, 2] 1 (by decide)

/-- Claim C8 counterexample: a three-term incompatibility with two positive
terms and one negative term, key-ordered as positive, negative, positive,
is classified as an internal error (`_die`), not as a Compromise — the code
requires the negative term to be the last of the three. -/
theorem c8_counterexample :
    transformIC ⟨[Term.mk (⟨0, [1, 2]⟩ : SimpleReq) true, Term.mk ⟨1, [1, 2]⟩ false,
                  Term.mk ⟨2, [1, 2]⟩ true], Cause.dependency⟩ = none ∧
    ([Term.mk (⟨0, [1, 2]⟩ : SimpleReq) true, Term.mk ⟨1, [1, 2]⟩ false,
      Term.mk ⟨2, [1, 2]⟩ true].countP Term.positive = 2) :=
  ⟨rfl, rfl⟩

/-- Claim C8 as amended: a three-term incompatibility is classified as
`Compromise` of its first, second and third requirements exactly when the
first two terms are positive and the third negative; every other sign
arrangement of three terms takes the internal-error path. -/
theorem c8_three_term_classification (a b c : Term R) (cause : Cause) :
    transformIC ⟨[a, b, c], cause⟩ =
      (if a.positive && b.positive && !c.positive then
        some (ExplainKind.compromise a.requirement b.requirement c.requirement)
      else none) := rfl

theorem mapFind_insertOrAssign_self [LinearOrder K] (m : List (K × V)) (k : K) (v : V) :
    mapFind (mapInsertOrAssign m k v) k = some v := by
  induction m with
  | nil => simp [mapInsertOrAssign, mapFind]
  | cons e rest ih =>
    by_cases h1 : k < e.1
    · simp [mapInsertOrAssign, h1, mapFind]
    · by_cases h2 : k = e.1
      · simp [mapInsertOrAssign, h1, h2, mapFind]
      · have h3 : ¬ e.1 = k := fun he => h2 he.symm
        simp [mapInsertOrAssign, h1, h2, mapFind, h3, ih]

theorem term_intersection_pos_left [DecidableEq K] (O : ReqOps R K) (t n i : Term R)
    (ht : t.positive = true) (h : Term.intersection O t n = Except.ok (some i)) :
    i.positive = true := by
  unfold Term.intersection at h
  by_cases hk : O.key t.requirement ≠ O.key n.requirement
  · rw [if_pos hk] at h
    cases h
  · rw [if_neg hk, ht] at h
    cases hn : n.positive <;> rw [hn] at h <;> simp at h <;>
      rcases h with ⟨r, hr, rfl⟩ <;> rfl

/-- Claim C4 counterexample: a positive term recorded while a negative
aggregate (and no positive aggregate) is stored for its key yields a
positive aggregate equal to the term INTERSECTED with the stored negative
— not the term itself — so the negative aggregate does contribute before
being removed. -/
theorem c4_counterexample :
    recordDerivation simpleOps ⟨[], [], [(0, Term.mk ⟨0, [5, 10]⟩ false)], []⟩
        (Term.mk ⟨0, [0, 20]⟩ true) 0 =
      some ⟨[⟨Term.mk ⟨0, [0, 20]⟩ true, 0, some 0⟩],
            [(0, Term.mk ⟨0, [0, 5, 10, 20]⟩ true)], [], []⟩ ∧
    Term.mk (⟨0, [0, 5, 10, 20]⟩ : SimpleReq) true ≠ Term.mk (⟨0, [0, 20]⟩ : SimpleReq) true :=
  ⟨rfl, by decide⟩

/-- Claim C4 as amended: recording a positive term `t` for key `k` updates
the aggregates as follows — if a positive aggregate exists it becomes its
intersection with `t` and the negatives are untouched; if only a negative
aggregate exists, the new positive aggregate is `t` intersected with that
negative (the negative contributes and is then erased); with no aggregate
at all, the positive aggregate becomes `t` itself. -/
theorem c4_register_positive [LinearOrder K] (O : ReqOps R K)
    (pos neg : List (K × Term R)) (t : Term R) (ht : t.positive = true)
    (pos2 neg2 : List (K × Term R))
    (h : psRegister O pos neg t = some (pos2, neg2)) :
    (∀ p, mapFind pos (O.key t.requirement) = some p →
       ∃ i, Term.intersection O p t = Except.ok (some i) ∧
         mapFind pos2 (O.key t.requirement) = some i ∧ neg2 = neg) ∧
    (mapFind pos (O.key t.requirement) = none →
       ∀ n, mapFind neg (O.key t.requirement) = some n →
       ∃ i, Term.intersection O t n = Except.ok (some i) ∧
         mapFind pos2 (O.key t.requirement) = some i ∧
         neg2 = mapErase neg (O.key t.requirement)) ∧
    (mapFind pos (O.key t.requirement) = none →
       mapFind neg (O.key t.requirement) = none →
       mapFind pos2 (O.key t.requirement) = some t ∧ neg2 = neg) := by
  simp only [psRegister] at h
  split at h
  next p hfp =>
    split at h
    next i hint =>
      simp only [Option.some.injEq, Prod.mk.injEq] at h
      obtain ⟨hpos2, hneg2⟩ := h
      refine ⟨?_, ?_, ?_⟩
      · intro p2 hp2
        rw [hfp] at hp2
        obtain rfl : p = p2 := by injection hp2
        exact ⟨i, hint, by rw [← hpos2]; exact mapFind_insertOrAssign_self pos _ i,
               hneg2.symm⟩
      · intro hnone; rw [hfp] at hnone; cases hnone
      · intro hnone; rw [hfp] at hnone; cases hnone
    next hne => cases h
  next hfp =>
    split at h
    next n hfn =>
      split at h
      next u hint =>
        have hu : u.positive = true := term_intersection_pos_left O t n u ht hint
        rw [hu] at h
        simp only [if_true, Option.some.injEq, Prod.mk.injEq] at h
        obtain ⟨hpos2, hneg2⟩ := h
        refine ⟨?_, ?_, ?_⟩
        · intro p2 hp2; rw [hfp] at hp2; cases hp2
        · intro _ n2 hn2
          rw [hfn] at hn2
          obtain rfl : n = n2 := by injection hn2
          exact ⟨u, hint, by rw [← hpos2]; exact mapFind_insertOrAssign_self pos _ u,
                 hneg2.symm⟩
        · intro _ hnone; rw [hfn] at hnone; cases hnone
      next hne => cases h
    next hfn =>
      rw [ht] at h
      simp only [if_true, Option.some.injEq, Prod.mk.injEq] at h
      obtain ⟨hpos2, hneg2⟩ := h
      refine ⟨?_, ?_, ?_⟩
      · intro p2 hp2; rw [hfp] at hp2; cases hp2
      · intro _ n2 hn2; rw [hfn] at hn2; cases hn2
      · intro _ _
        exact ⟨by rw [← hpos2]; exact mapFind_insertOrAssign_self pos _ t, hneg2.symm⟩

theorem c4_witness :
    mapFind [(0, Term.mk (⟨0, [1, 2]⟩ : SimpleReq) true)] 0 =
        some (Term.mk (⟨0, [1, 2]⟩ : SimpleReq) true) ∧
    ([] : List (Nat × Term SimpleReq)) = [] :=
  (c4_register_positive simpleOps [] [] (Term.mk ⟨0, [1, 2]⟩ true) rfl
      [(0, Term.mk ⟨0, [1, 2]⟩ true)] [] rfl).2.2 rfl rfl

theorem buildBtAux_some_ne_ok_none [LinearOrder K] (O : ReqOps R K)
    (asg : List (Assignment R)) (ts : List (Term R)) (i : Nat) (s : BtAcc R) :
    buildBtAux O asg ts i (some s) ≠ Except.ok none := by
  induction ts generalizing i s with
  | nil => simp [buildBtAux]
  | cons t ts ih =>
    simp only [buildBtAux]
    repeat' split
    all_goals first | exact ih _ _ | simp

theorem buildBtAux_cons_ne_ok_none [LinearOrder K] (O : ReqOps R K)
    (asg : List (Assignment R)) (t : Term R) (ts : List (Term R)) (i : Nat)
    (acc : Option (BtAcc R)) :
    buildBtAux O asg (t :: ts) i acc ≠ Except.ok none := by
  simp only [buildBtAux]
  repeat' split
  all_goals first | exact buildBtAux_some_ne_ok_none O asg ts _ _ | simp

/-- Claim C5 counterexample: called on an empty term range while the log
holds one assignment, `build_backtrack_info` returns `none` even though
assignments exist — the `none` result tracks the term range, not the log. -/
theorem c5_counterexample :
    buildBtInfo simpleOps [⟨Term.mk ⟨0, [1, 2]⟩ true, 0, some 0⟩]
        ([] : List (Term SimpleReq)) = Except.ok none ∧
    ([⟨Term.mk ⟨0, [1, 2]⟩ true, 0, some 0⟩] : List (Assignment SimpleReq)) ≠ [] :=
  ⟨rfl, by simp⟩

/-- Claim C5 as amended: `build_backtrack_info` returns `none` if and only
if the given term range is empty (a non-empty range either produces a
result or dies in a satisfier assertion, regardless of the log). -/
theorem c5_none_iff_terms_empty [LinearOrder K] (O : ReqOps R K)
    (asg : List (Assignment R)) (ts : List (Term R)) :
    buildBtInfo O asg ts = Except.ok none ↔ ts = [] := by
  constructor
  · intro h
    cases ts with
    | nil => rfl
    | cons t ts2 => exact absurd h (buildBtAux_cons_ne_ok_none O asg t ts2 0 none)
  · rintro rfl
    rfl

/-- Claim C10: solving an empty range of roots immediately returns the
empty solution; the result is the same for every provider, so neither
`best_candidate` nor `requirements_of` is ever consulted. -/
theorem c10_solve_empty_roots [LinearOrder K] (O : ReqOps R K) (P : Provider R)
    (fuel : Nat) : solve O P (fuel + 1) [] = Except.ok [] := rfl

/-- Claim C1 (code evaluated at the failing input): with a provider whose
`best_candidate` answers the request `pkg1 ∈ [1,2)` with the out-of-range
candidate `pkg1 ∈ [0,2)` — a contract violation the spec says must surface
as a fatal error, but which the code never checks — the solve succeeds and
returns a solution in which the requirement `pkg1 ∈ [1,2)` of the decision
for `pkg0` is implied by no returned decision. -/
theorem c1_unchecked_candidate_breaks_closure :
    solve simpleOps badProvider 8 [⟨0, [1, 2]⟩] =
      Except.ok [⟨0, [1, 2]⟩, ⟨1, [0, 2]⟩] ∧
    solClosed simpleOps badProvider [⟨0, [1, 2]⟩, ⟨1, [0, 2]⟩] = false :=
  ⟨rfl, by decide⟩

theorem setInsert_mem [LinearOrder K] (s : List K) (k x : K) :
    x ∈ setInsert s k ↔ x = k ∨ x ∈ s := by
  induction s with
  | nil => simp [setInsert]
  | cons y rest ih =>
    by_cases h1 : k < y
    · simp only [setInsert, if_pos h1, List.mem_cons]
    · by_cases h2 : k = y
      · simp only [setInsert, if_neg h1, if_pos h2, List.mem_cons]
        subst h2
        tauto
      · simp only [setInsert, if_neg h1, if_neg h2, List.mem_cons, ih]
        tauto

theorem setInsert_length_not_mem [LinearOrder K] (s : List K) (k : K) (hk : k ∉ s) :
    (setInsert s k).length = s.length + 1 := by
  induction s with
  | nil => rfl
  | cons y rest ih =>
    have h2 : ¬ k = y := fun he => hk (by rw [he]; exact List.mem_cons_self y rest)
    have hk2 : k ∉ rest := fun hmem => hk (List.mem_cons_of_mem y hmem)
    by_cases h1 : k < y
    · simp [setInsert, h1]
    · simp [setInsert, h1, h2, ih hk2]

theorem foldl_setInsert_mem [LinearOrder K] (keys : List K) (s : List K) (x : K) :
    x ∈ keys.foldl setInsert s ↔ x ∈ s ∨ x ∈ keys := by
  induction keys generalizing s with
  | nil => simp
  | cons k ks ih =>
    rw [List.foldl_cons, ih, setInsert_mem]
    simp only [List.mem_cons]
    tauto

theorem foldl_setInsert_length [LinearOrder K] (keys : List K) (s : List K)
    (hnd : keys.Nodup) (hdisj : ∀ k ∈ keys, k ∉ s) :
    (keys.foldl setInsert s).length = s.length + keys.length := by
  induction keys generalizing s with
  | nil => simp
  | cons k ks ih =>
    rcases List.nodup_cons.mp hnd with ⟨hknotin, hnd2⟩
    have hkns : k ∉ s := hdisj k (List.mem_cons_self k ks)
    have hdisj2 : ∀ j ∈ ks, j ∉ setInsert s k := by
      intro j hj hmem
      rcases (setInsert_mem s k j).mp hmem with rfl | hjs
      · exact hknotin hj
      · exact hdisj j (List.mem_cons_of_mem k hj) hjs
    rw [List.foldl_cons, ih (setInsert s k) hnd2 hdisj2, setInsert_length_not_mem s k hkns]
    simp
    omega

theorem decisionKeys_length (O : ReqOps R K) (l : List (Assignment R)) :
    (decisionKeys O l).length = countDecisions l := by
  simp [decisionKeys, countDecisions, List.countP_eq_length_filter]

theorem canonDecided_mem [LinearOrder K] (O : ReqOps R K) (l : List (Assignment R)) (x : K) :
    x ∈ canonDecided O l ↔ x ∈ decisionKeys O l := by
  rw [canonDecided, foldl_setInsert_mem]
  simp

theorem canonDecided_length [LinearOrder K] (O : ReqOps R K) (l : List (Assignment R))
    (hnd : (decisionKeys O l).Nodup) :
    (canonDecided O l).length = countDecisions l := by
  rw [canonDecided, foldl_setInsert_length _ _ hnd (by simp)]
  simp [decisionKeys_length]

theorem decisionKeys_append (O : ReqOps R K) (l1 l2 : List (Assignment R)) :
    decisionKeys O (l1 ++ l2) = decisionKeys O l1 ++ decisionKeys O l2 := by
  simp [decisionKeys, List.filter_append]

theorem decisionKeys_single_decision (O : ReqOps R K) (a : Assignment R)
    (ha : a.isDecision = true) :
    decisionKeys O [a] = [O.key a.term.requirement] := by
  simp [decisionKeys, List.filter_cons, ha]

theorem decisionKeys_single_derivation (O : ReqOps R K) (a : Assignment R)
    (ha : a.isDecision = false) :
    decisionKeys O [a] = [] := by
  simp [decisionKeys, List.filter_cons, ha]

theorem canonDecided_append_decision [LinearOrder K] (O : ReqOps R K)
    (l : List (Assignment R)) (a : Assignment R) (ha : a.isDecision = true) :
    canonDecided O (l ++ [a]) = setInsert (canonDecided O l) (O.key a.term.requirement) := by
  rw [canonDecided, decisionKeys_append, List.foldl_append,
    decisionKeys_single_decision O a ha]
  rfl

theorem canonDecided_append_derivation [LinearOrder K] (O : ReqOps R K)
    (l : List (Assignment R)) (a : Assignment R) (ha : a.isDecision = false) :
    canonDecided O (l ++ [a]) = canonDecided O l := by
  rw [canonDecided, decisionKeys_append, List.foldl_append,
    decisionKeys_single_derivation O a ha]
  rfl

theorem countDecisions_cons (a : Assignment R) (l : List (Assignment R)) :
    countDecisions (a :: l) = countDecisions l + (if a.isDecision then 1 else 0) := by
  simp [countDecisions, List.countP_cons]

theorem wellLeveled_append (d : Nat) (l1 l2 : List (Assignment R)) :
    wellLeveled d (l1 ++ l2) =
      (wellLeveled d l1 && wellLeveled (d + countDecisions l1) l2) := by
  induction l1 generalizing d with
  | nil =>
    simp [wellLeveled, countDecisions]
  | cons a l ih =>
    cases ha : a.isDecision with
    | true =>
      have hc : d + countDecisions (a :: l) = (d + 1) + countDecisions l := by
        rw [countDecisions_cons, ha]
        simp
        omega
      simp [List.cons_append, wellLeveled, ha, hc, ih (d + 1), Bool.and_assoc]
    | false =>
      have hc : d + countDecisions (a :: l) = d + countDecisions l := by
        rw [countDecisions_cons, ha]
        simp
      simp [List.cons_append, wellLeveled, ha, hc, ih d, Bool.and_assoc]

theorem wellLeveled_monotone (d : Nat) (l : List (Assignment R))
    (h : wellLeveled d l = true) :
    (∀ a ∈ l, d ≤ a.decisionLevel) ∧
    levelsMonotone (l.map (fun a => a.decisionLevel)) = true := by
  induction l generalizing d with
  | nil => exact ⟨by simp, rfl⟩
  | cons a rest ih =>
    have hsplit : a.decisionLevel = (if a.isDecision then d + 1 else d) ∧
        wellLeveled (if a.isDecision then d + 1 else d) rest = true := by
      cases ha : a.isDecision <;>
        simpa [wellLeveled, ha, Bool.and_eq_true, beq_iff_eq] using h
    obtain ⟨hlvl, hrest⟩ := hsplit
    have hd : d ≤ (if a.isDecision then d + 1 else d) := by
      cases a.isDecision <;> simp
    obtain ⟨hbound, hmono⟩ := ih _ hrest
    constructor
    · intro b hb
      rcases List.mem_cons.mp hb with rfl | hb2
      · omega
      · exact le_trans hd (hbound b hb2)
    · cases rest with
      | nil => rfl
      | cons b rest2 =>
        simp only [List.map_cons, levelsMonotone, Bool.and_eq_true]
        refine ⟨?_, ?_⟩
        · have hb := hbound b (List.mem_cons_self b rest2)
          simp only [decide_eq_true_eq]
          omega
        · simpa using hmono

theorem psReplay_decided [LinearOrder K] (O : ReqOps R K) (asg : List (Assignment R))
    (pos neg : List (K × Term R)) (dk : List K)
    (out : List (K × Term R) × List (K × Term R) × List K)
    (h : psReplay O asg pos neg dk = some out) :
    out.2.2 = (decisionKeys O asg).foldl setInsert dk := by
  induction asg generalizing pos neg dk with
  | nil =>
    simp only [psReplay, Option.some.injEq] at h
    rw [← h]
    simp [decisionKeys]
  | cons a rest ih =>
    simp only [psReplay] at h
    cases hreg : psRegister O pos neg a.term with
    | none => rw [hreg] at h; cases h
    | some pr =>
      rw [hreg] at h
      cases ha : a.isDecision with
      | true =>
        rw [ha, if_pos rfl] at h
        rw [ih _ _ _ h]
        have hdk : decisionKeys O (a :: rest) =
            O.key a.term.requirement :: decisionKeys O rest := by
          simp [decisionKeys, List.filter_cons, ha]
        rw [hdk, List.foldl_cons]
      | false =>
        rw [ha, if_neg (by simp)] at h
        rw [ih _ _ _ h]
        have hdk : decisionKeys O (a :: rest) = decisionKeys O rest := by
          simp [decisionKeys, List.filter_cons, ha]
        rw [hdk]

theorem truncAbove_prefix (lvl : Nat) (asg : List (Assignment R)) :
    ∃ tail, asg = truncAbove lvl asg ++ tail := by
  refine ⟨(asg.reverse.takeWhile (fun a => decide (lvl < a.decisionLevel))).reverse, ?_⟩
  conv_lhs => rw [← List.reverse_reverse asg,
    ← List.takeWhile_append_dropWhile (p := fun a => decide (lvl < a.decisionLevel))
      (l := asg.reverse)]
  rw [truncAbove, List.reverse_append]

/-- Claim C6: every assignment's recorded decision level equals the number
of decisions recorded at the time of its insertion — `record_derivation`
records at the current decided-key count, `record_decision` at the
incremented count (the `wellLeveled` component of `PSInv`) — and
consequently the levels along the log never decrease; the invariant is
preserved by `record_derivation`, `record_decision` and `backtrack_to`. -/
theorem c6_decision_level_invariant [LinearOrder K] (O : ReqOps R K)
    (ps : PartialSol R K) (h : PSInv O ps) :
    (∀ t c ps2, recordDerivation O ps t c = some ps2 → PSInv O ps2) ∧
    (∀ t ps2, recordDecision O ps t = some ps2 → PSInv O ps2) ∧
    (∀ lvl ps2, backtrackTo O ps lvl = some ps2 → PSInv O ps2) ∧
    levelsMonotone (ps.assignments.map (fun a => a.decisionLevel)) = true := by
  obtain ⟨h1, h2, h3⟩ := h
  have hlen : ps.decidedKeys.length = countDecisions ps.assignments := by
    rw [h2]
    exact canonDecided_length O _ h3
  refine ⟨?_, ?_, ?_, (wellLeveled_monotone 0 ps.assignments h1).2⟩
  · intro t c ps2 hrec
    simp only [recordDerivation] at hrec
    cases hreg : psRegister O ps.positives ps.negatives t with
    | none => rw [hreg] at hrec; cases hrec
    | some pr =>
      rw [hreg] at hrec
      simp only [Option.map_some', Option.some.injEq] at hrec
      subst hrec
      refine ⟨?_, ?_, ?_⟩
      · rw [wellLeveled_append, Bool.and_eq_true]
        refine ⟨h1, ?_⟩
        simp [wellLeveled, Assignment.isDecision, hlen]
      · rw [canonDecided_append_derivation O ps.assignments
            ⟨t, ps.decidedKeys.length, some c⟩ rfl]
        exact h2
      · rw [decisionKeys_append,
            decisionKeys_single_derivation O ⟨t, ps.decidedKeys.length, some c⟩ rfl]
        simpa using h3
  · intro t ps2 hrec
    simp only [recordDecision] at hrec
    by_cases hmem : O.key t.requirement ∈ ps.decidedKeys
    · rw [if_pos hmem] at hrec; cases hrec
    · rw [if_neg hmem] at hrec
      cases hpos : t.positive with
      | false => rw [hpos] at hrec; simp at hrec
      | true =>
        rw [hpos] at hrec
        simp only [Bool.not_true, Bool.false_eq_true, if_false] at hrec
        cases hreg : psRegister O ps.positives ps.negatives t with
        | none => rw [hreg] at hrec; cases hrec
        | some pr =>
          rw [hreg] at hrec
          simp only [Option.map_some', Option.some.injEq] at hrec
          subst hrec
          have hknotin : O.key t.requirement ∉ decisionKeys O ps.assignments := by
            intro hmem2
            exact hmem (by rw [h2]; exact (canonDecided_mem O _ _).mpr hmem2)
          refine ⟨?_, ?_, ?_⟩
          · rw [wellLeveled_append, Bool.and_eq_true]
            refine ⟨h1, ?_⟩
            have hlen2 :
                (setInsert ps.decidedKeys (O.key t.requirement)).length =
                  ps.decidedKeys.length + 1 :=
              setInsert_length_not_mem ps.decidedKeys _ hmem
            simp [wellLeveled, Assignment.isDecision, hlen2, hlen]
          · rw [canonDecided_append_decision O ps.assignments
                ⟨t, (setInsert ps.decidedKeys (O.key t.requirement)).length, none⟩ rfl]
            rw [h2]
          · rw [decisionKeys_append,
              decisionKeys_single_decision O
                ⟨t, (setInsert ps.decidedKeys (O.key t.requirement)).length, none⟩ rfl,
              List.nodup_append]
            refine ⟨h3, List.nodup_singleton _, ?_⟩
            intro x hx hx2
            rw [List.mem_singleton] at hx2
            subst hx2
            exact hknotin hx
  · intro lvl ps2 hbt
    simp only [backtrackTo] at hbt
    cases hrep : psReplay O (truncAbove lvl ps.assignments) [] [] [] with
    | none => rw [hrep] at hbt; cases hbt
    | some st =>
      rw [hrep] at hbt
      simp only [Option.map_some', Option.some.injEq] at hbt
      subst hbt
      obtain ⟨tail, hsplit⟩ := truncAbove_prefix lvl ps.assignments
      have h1b := h1
      rw [hsplit, wellLeveled_append, Bool.and_eq_true] at h1b
      have h3b := h3
      rw [hsplit, decisionKeys_append] at h3b
      refine ⟨h1b.1, ?_, ?_⟩
      · exact psReplay_decided O _ [] [] [] st hrep
      · exact (List.nodup_append.mp h3b).1

theorem c6_witness :
    PSInv simpleOps ⟨[⟨Term.mk ⟨0, [1, 2]⟩ true, 1, none⟩],
      [(0, Term.mk ⟨0, [1, 2]⟩ true)], [], [0]⟩ :=
  (c6_decision_level_invariant simpleOps ⟨[], [], [], []⟩
      ⟨rfl, rfl, List.nodup_nil⟩).2.1 (Term.mk ⟨0, [1, 2]⟩ true) _ rfl

theorem c5_witness :
    buildBtInfo simpleOps ([] : List (Assignment SimpleReq)) [] = Except.ok none :=
  (c5_none_iff_terms_empty simpleOps [] []).mpr rfl
